import Mathlib

/-!
Verification of the string-encoding core and the Glorot weight
initialization rule of this repository.

The string-encoding part (`StringEncoding`, its `Dictionary` and the
dictionary-based encoding policy) is declared in
`src/src/mlpack/core/data/string_encoding.hpp`, whose implementation files
(`string_encoding_impl.hpp`, `string_encoding_dictionary.hpp`) are not part
of the excerpt; those components are modelled from the spec below.

The Glorot initialization rule (`glorot_init.hpp`) is present in full and is
embedded directly.  The random fills delegated to the collaborators
`RandomInitialization` / `GaussianInitialization` are modelled symbolically:
a matrix records the distribution its entries were drawn from, since the
individual pseudo-random draws are not statable.
-/

/-- Modelled from the spec: the Dictionary of `string_encoding_dictionary.hpp`
(not in the excerpt).  Tokens are kept in first-seen insertion order; the
label of a token is its position in this list, so labels `0 … size-1` are
assigned in first-seen order.  `α` is the token type. -/
structure Dictionary (α : Type) where
  tokens : List α
deriving DecidableEq

/-- A freshly-constructed (empty) Dictionary. -/
def Dictionary.empty (α : Type) : Dictionary α := ⟨[]⟩

/-- Position of the first occurrence of `t` in the list, if present.  This is
the label lookup primitive of the modelled Dictionary. -/
def lookupTok {α : Type} [DecidableEq α] : List α → α → Option Nat
  | [], _ => none
  | x :: xs, t => if x = t then some 0 else (lookupTok xs t).map (· + 1)

/-- Modelled from the spec: `Dictionary.Find` — pure lookup, no mutation. -/
def Dictionary.Find {α : Type} [DecidableEq α] (d : Dictionary α) (t : α) :
    Option Nat :=
  lookupTok d.tokens t

/-- Modelled from the spec: `Dictionary.Size` — count of distinct tokens. -/
def Dictionary.Size {α : Type} (d : Dictionary α) : Nat := d.tokens.length

/-- Modelled from the spec: `Dictionary.Insert` — if the token is unseen,
assigns the next sequential label and records it; returns the (possibly
pre-existing) label. -/
def Dictionary.Insert {α : Type} [DecidableEq α] (d : Dictionary α) (t : α) :
    Dictionary α × Nat :=
  match d.Find t with
  | some l => (d, l)
  | none => (⟨d.tokens ++ [t]⟩, d.tokens.length)

/-- Modelled from the spec: `Dictionary.Clear` — removes all entries. -/
def Dictionary.Clear {α : Type} (_ : Dictionary α) : Dictionary α := ⟨[]⟩

/-- Modelled from the spec: insert a list of tokens left to right (the token
stream one tokenized line feeds to the Dictionary). -/
def insertList {α : Type} [DecidableEq α] (d : Dictionary α) :
    List α → Dictionary α
  | [] => d
  | t :: ts => insertList (d.Insert t).1 ts

/-- Modelled from the spec: `StringEncoding::CreateMap` (implementation in
`string_encoding_impl.hpp`, not in the excerpt) — tokenizes `input` with the
tokenizer and inserts every token into the Dictionary.  A tokenizer is
modelled by the list of non-empty tokens it yields for a line before its
end-of-input sentinel fires. -/
def createMap {α β : Type} [DecidableEq α] (tok : β → List α) (input : β)
    (d : Dictionary α) : Dictionary α :=
  insertList d (tok input)

/-- Modelled from the spec: `CreateMap` run over a corpus given as a list of
lines, in input order. -/
def createMapCorpus {α β : Type} [DecidableEq α] (tok : β → List α)
    (input : List β) (d : Dictionary α) : Dictionary α :=
  input.foldl (fun d line => createMap tok line d) d

/-- Modelled from the spec: encoding one tokenized line with the
dictionary-based policy — each token is looked up (or inserted, growing the
Dictionary) and its label emitted, left to right. -/
def encodeTokens {α : Type} [DecidableEq α] (d : Dictionary α) :
    List α → Dictionary α × List Nat
  | [] => (d, [])
  | t :: ts =>
    let r := d.Insert t
    let rest := encodeTokens r.1 ts
    (rest.1, r.2 :: rest.2)

/-- Modelled from the spec: `StringEncoding::Encode` into the
jagged-sequence output shape — each line of `input` is processed
independently and in input order; output sequence `i` holds the labels of
the tokens of line `i`, with no padding. -/
def encodeCorpus {α β : Type} [DecidableEq α] (tok : β → List α)
    (d : Dictionary α) : List β → Dictionary α × List (List Nat)
  | [] => (d, [])
  | line :: rest =>
    let r := encodeTokens d (tok line)
    let rs := encodeCorpus tok r.1 rest
    (rs.1, r.2 :: rs.2)

/-- Maximum token count over all lines of the corpus. -/
def maxTokenCount {α β : Type} (tok : β → List α) (input : List β) : Nat :=
  (input.map (fun line => (tok line).length)).foldl max 0

/-- Pad one row on the right with zeros to width `w`. -/
def padRow (w : Nat) (r : List Nat) : List Nat :=
  r ++ List.replicate (w - r.length) 0

/-- Modelled from the spec: `StringEncoding::Encode` into the dense-matrix
output shape — one row per input line, pre-sized to
(number of lines) × (maximum token count across all lines); shorter lines
are zero-padded on the right. -/
def encodeDense {α β : Type} [DecidableEq α] (tok : β → List α)
    (d : Dictionary α) (input : List β) : Dictionary α × List (List Nat) :=
  let r := encodeCorpus tok d input
  (r.1, r.2.map (padRow (maxTokenCount tok input)))

/-- Modelled from the spec: Dictionary serialization — the archive captures
the token↔label pairs in insertion order. -/
def Dictionary.serializeDict {α : Type} (d : Dictionary α) :
    List (α × Nat) :=
  d.tokens.enum.map (fun p => (p.2, p.1))

/-- Modelled from the spec: Dictionary deserialization — rebuilds the table
from the archived token↔label pairs, preserving insertion order. -/
def Dictionary.deserializeDict {α : Type} (a : List (α × Nat)) :
    Dictionary α :=
  ⟨a.map Prod.fst⟩

/-- Whitespace tokenization of a line of characters: maximal runs of
non-space characters, in order.  `acc` holds the current token reversed. -/
def splitWSAux : List Char → List Char → List (List Char)
  | acc, [] => if acc.isEmpty then [] else [acc.reverse]
  | acc, c :: rest =>
    if c = ' ' then
      if acc.isEmpty then splitWSAux [] rest
      else acc.reverse :: splitWSAux [] rest
    else splitWSAux (c :: acc) rest

/-- The whitespace tokenizer used by the concrete scenario of the spec. -/
def whitespaceTokenize (line : List Char) : List (List Char) :=
  splitWSAux [] line

/-- The distribution a weight container was filled from, recorded
symbolically: `uniformSym a n` stands for the uniform distribution on
`[-sqrt a / sqrt n, sqrt a / sqrt n]` (the collaborator
`RandomInitialization(-sqrt a / sqrt n, sqrt a / sqrt n)`), and
`gaussian m v n` for the normal distribution with mean `m` and variance
`v / n` (the collaborator `GaussianInitialization(m, v / n)`). -/
inductive InitDistribution : Type
  | uniformSym : Nat → Nat → InitDistribution
  | gaussian : Int → Nat → Nat → InitDistribution
deriving DecidableEq

/-- An `arma::Mat` as the Glorot rule observes it: its shape, and the
distribution its entries were (last) filled from, `none` for an unfilled
matrix. -/
structure GMat where
  nRows : Nat
  nCols : Nat
  dist : Option InitDistribution
deriving DecidableEq

/-- `arma::Mat::is_empty`: no elements. -/
def GMat.isEmpty (m : GMat) : Bool := m.nRows * m.nCols == 0

/-- An `arma::Cube`: shape plus its list of slices (each a matrix). -/
structure GCube where
  nRows : Nat
  nCols : Nat
  slices : List GMat
deriving DecidableEq

/-- `arma::Cube::is_empty`: no elements. -/
def GCube.isEmpty (c : GCube) : Bool :=
  c.nRows * c.nCols * c.slices.length == 0

/-- The fatal abort raised through `Log::Fatal` ("Cannot initialize an
empty matrix."): the process terminates, so the overload yields no matrix. -/
inductive FatalError : Type
  | emptyMatrix : FatalError
deriving DecidableEq

/-- The distribution `GlorotInitializationType<Uniform>` fills a matrix of
total fan `n = rows + cols` from: `Uniform = true` builds
`RandomInitialization(-a, a)` with `a = sqrt 6 / sqrt (rows + cols)`;
`Uniform = false` builds `GaussianInitialization(0, var)` with
`var = 2 / (rows + cols)` (glorot_init.hpp lines 120-122 and 147-149). -/
def glorotMatDist (uniform : Bool) (n : Nat) : InitDistribution :=
  if uniform then InitDistribution.uniformSym 6 n
  else InitDistribution.gaussian 0 2 n

/-- `GlorotInitializationType<Uniform>::Initialize(W, rows, cols)`
(glorot_init.hpp lines 111-123 and 137-150): an empty `W` is first
allocated to `rows × cols`; then every entry is filled from the Glorot
distribution for fan `rows + cols`. -/
def glorotInitializeSized (uniform : Bool) (W : GMat) (rows cols : Nat) :
    GMat :=
  let W0 := if W.isEmpty then { nRows := rows, nCols := cols, dist := none }
            else W
  { W0 with dist := some (glorotMatDist uniform (rows + cols)) }

/-- `GlorotInitializationType<Uniform>::Initialize(W)` (glorot_init.hpp
lines 125-135 and 152-163): an empty `W` is fatal (`Log::Fatal`, process
terminates before anything is written); otherwise the shape is inferred
from `W` and every entry filled from the Glorot distribution for fan
`W.n_rows + W.n_cols`. -/
def glorotInitializeInfer (uniform : Bool) (W : GMat) :
    Except FatalError GMat :=
  if W.isEmpty then Except.error FatalError.emptyMatrix
  else Except.ok
    { W with dist := some (glorotMatDist uniform (W.nRows + W.nCols)) }

/-- The slice loop `for (i = 0; i < n; ++i) Initialize(W.slice(i), rows,
cols)` of the cube overloads: the first `n` slices are initialized with the
sized matrix overload, the rest left untouched. -/
def initSlices (uniform : Bool) (rows cols : Nat) :
    Nat → List GMat → List GMat
  | _, [] => []
  | 0, ms => ms
  | n + 1, m :: ms =>
    glorotInitializeSized uniform m rows cols :: initSlices uniform rows cols n ms

/-- `GlorotInitializationType<Uniform>::Initialize(W, rows, cols, slices)`
(glorot_init.hpp lines 165-178): an empty cube is first allocated to
`rows × cols × slices`; then each slice `i < slices` is initialized by the
sized matrix overload with `rows` and `cols` only. -/
def glorotCubeInitializeSized (uniform : Bool) (W : GCube)
    (rows cols slices : Nat) : GCube :=
  let W0 := if W.isEmpty then
      { nRows := rows, nCols := cols,
        slices := List.replicate slices
          { nRows := rows, nCols := cols, dist := none } }
    else W
  { W0 with slices := initSlices uniform rows cols slices W0.slices }

/-- `GlorotInitializationType<Uniform>::Initialize(W)` for cubes
(glorot_init.hpp lines 180-190): an empty cube is fatal; otherwise each of
its `n_slices` slices is initialized by the sized matrix overload with
`W.n_rows` and `W.n_cols`. -/
def glorotCubeInitializeInfer (uniform : Bool) (W : GCube) :
    Except FatalError GCube :=
  if W.isEmpty then Except.error FatalError.emptyMatrix
  else Except.ok
    { W with slices :=
        initSlices uniform W.nRows W.nCols W.slices.length W.slices }

/-- The convenience alias `using XavierInitialization =
GlorotInitializationType<true>` (glorot_init.hpp line 197), recorded as the
`Uniform` template argument the alias names. -/
def XavierInitialization : Bool := true

/-- The convenience alias `using GlorotInitialization =
GlorotInitializationType<false>` (glorot_init.hpp line 202), recorded as
the `Uniform` template argument the alias names. -/
def GlorotInitialization : Bool := false

/-- The bijection invariant of the spec: the token→label assignment is a
bijection between the currently-known tokens and `{0 … Size-1}` — every
known token has exactly one label in range, every label in range is some
token's label (no gaps), and no two tokens share a label. -/
def DictionaryBijectionSpec {α : Type} [DecidableEq α] (d : Dictionary α) :
    Prop :=
  (∀ t, t ∈ d.tokens → ∃ l, d.Find t = some l ∧ l < d.Size)
  ∧ (∀ l, l < d.Size → ∃ t, t ∈ d.tokens ∧ d.Find t = some l)
  ∧ (∀ t1 t2 l, d.Find t1 = some l → d.Find t2 = some l → t1 = t2)

/-- Label permanence of the spec: once a token has a label, inserting other
tokens (one at a time or a whole stream, which is what `CreateMap` and
`Encode` do to the Dictionary) never changes that token's label. -/
def DictionaryLabelPermanence {α : Type} [DecidableEq α]
    (d : Dictionary α) : Prop :=
  (∀ t l u, d.Find t = some l → ((d.Insert u).1).Find t = some l)
  ∧ (∀ t l ts, d.Find t = some l → (insertList d ts).Find t = some l)

/-- What the sized cube overload does to an empty cube: allocates it to
`rows × cols × slices` and fills every slice from the Glorot matrix
distribution for fan `rows + cols` — the same distribution for every
slice, not depending on the number of slices. -/
def GlorotCubeSizedSpec (uniform : Bool) (rows cols slices : Nat)
    (W : GCube) : Prop :=
  (glorotCubeInitializeSized uniform W rows cols slices).nRows = rows
  ∧ (glorotCubeInitializeSized uniform W rows cols slices).nCols = cols
  ∧ (glorotCubeInitializeSized uniform W rows cols slices).slices.length
      = slices
  ∧ ∀ m ∈ (glorotCubeInitializeSized uniform W rows cols slices).slices,
      m = ⟨rows, cols, some (glorotMatDist uniform (rows + cols))⟩

/-- What the shape-inferring cube overload does to a non-empty cube: keeps
its shape and fills every slice from the Glorot matrix distribution for fan
`n_rows + n_cols` — identical for every slice. -/
def GlorotCubeInferSpec (uniform : Bool) : Prop :=
  ∀ C2 : GCube, C2.isEmpty = false →
    ∃ r, glorotCubeInitializeInfer uniform C2 = Except.ok r
      ∧ r.nRows = C2.nRows ∧ r.nCols = C2.nCols
      ∧ r.slices.length = C2.slices.length
      ∧ ∀ m ∈ r.slices,
          m.dist = some (glorotMatDist uniform (C2.nRows + C2.nCols))

/-! ### Lookup lemmas -/

theorem lookupTok_lt_length {α : Type} [DecidableEq α] {l : List α} {t : α}
    {i : Nat} (h : lookupTok l t = some i) : i < l.length := by
  induction l generalizing i with
  | nil => simp [lookupTok] at h
  | cons x xs ih =>
    by_cases hx : x = t
    · simp [lookupTok, hx] at h
      simp only [List.length_cons]
      omega
    · simp [lookupTok, hx] at h
      obtain ⟨j, hj, rfl⟩ := h
      have := ih hj
      simp only [List.length_cons]
      omega

theorem lookupTok_get {α : Type} [DecidableEq α] {l : List α} {t : α}
    {i : Nat} (h : lookupTok l t = some i) :
    ∃ hi : i < l.length, l.get ⟨i, hi⟩ = t := by
  induction l generalizing i with
  | nil => simp [lookupTok] at h
  | cons x xs ih =>
    by_cases hx : x = t
    · simp [lookupTok, hx] at h
      subst h
      exact ⟨by simp, hx⟩
    · simp [lookupTok, hx] at h
      obtain ⟨j, hj, rfl⟩ := h
      obtain ⟨hjl, hget⟩ := ih hj
      exact ⟨by simpa using Nat.succ_lt_succ hjl, by simpa using hget⟩

theorem mem_of_lookupTok {α : Type} [DecidableEq α] {l : List α} {t : α}
    {i : Nat} (h : lookupTok l t = some i) : t ∈ l := by
  obtain ⟨hi, hget⟩ := lookupTok_get h
  exact hget ▸ List.get_mem l i hi

theorem lookupTok_some_of_mem {α : Type} [DecidableEq α] {l : List α} {t : α}
    (h : t ∈ l) : ∃ i, lookupTok l t = some i := by
  induction l with
  | nil => cases h
  | cons x xs ih =>
    by_cases hx : x = t
    · exact ⟨0, by simp [lookupTok, hx]⟩
    · have hm : t ∈ xs := by
        rcases List.mem_cons.mp h with h1 | h1
        · exact absurd h1.symm hx
        · exact h1
      obtain ⟨i, hi⟩ := ih hm
      exact ⟨i + 1, by simp [lookupTok, hx, hi]⟩

theorem lookupTok_none_of_not_mem {α : Type} [DecidableEq α] {l : List α}
    {t : α} (h : t ∉ l) : lookupTok l t = none := by
  induction l with
  | nil => rfl
  | cons x xs ih =>
    have hx : ¬ x = t := fun hh => h (hh ▸ List.mem_cons_self x xs)
    have hm : t ∉ xs := fun hm => h (List.mem_cons_of_mem x hm)
    simp [lookupTok, hx, ih hm]

theorem lookupTok_get_of_nodup {α : Type} [DecidableEq α] {l : List α}
    (hnd : l.Nodup) (i : Nat) (hi : i < l.length) :
    lookupTok l (l.get ⟨i, hi⟩) = some i := by
  induction l generalizing i with
  | nil => simp at hi
  | cons x xs ih =>
    cases i with
    | zero => simp [lookupTok]
    | succ j =>
      have hjl : j < xs.length := by simpa using hi
      have hnd2 := List.nodup_cons.mp hnd
      have hx : ¬ x = xs.get ⟨j, hjl⟩ := by
        intro hcontra
        exact hnd2.1 (hcontra ▸ List.get_mem xs j hjl)
      have hget : (x :: xs).get ⟨j + 1, hi⟩ = xs.get ⟨j, hjl⟩ := rfl
      have ihm := ih hnd2.2 j hjl
      rw [hget]
      simp only [lookupTok]
      rw [if_neg hx, ihm]
      rfl

theorem lookupTok_append {α : Type} [DecidableEq α] {l l2 : List α} {t : α}
    {i : Nat} (h : lookupTok l t = some i) :
    lookupTok (l ++ l2) t = some i := by
  induction l generalizing i with
  | nil => simp [lookupTok] at h
  | cons x xs ih =>
    by_cases hx : x = t
    · simp [lookupTok, hx] at h ⊢
      omega
    · simp [lookupTok, hx] at h ⊢
      obtain ⟨j, hj, rfl⟩ := h
      exact ⟨j, ih hj, rfl⟩

theorem lookupTok_append_self {α : Type} [DecidableEq α] {l : List α} {t : α}
    (h : t ∉ l) : lookupTok (l ++ [t]) t = some l.length := by
  induction l with
  | nil => simp [lookupTok]
  | cons x xs ih =>
    have hx : ¬ x = t := fun hh => h (hh ▸ List.mem_cons_self x xs)
    have hm : t ∉ xs := fun hm => h (List.mem_cons_of_mem x hm)
    simp [lookupTok, hx, ih hm]

/-! ### Dictionary lemmas -/

theorem find_eq_none_iff {α : Type} [DecidableEq α] {d : Dictionary α}
    {t : α} : d.Find t = none ↔ t ∉ d.tokens := by
  constructor
  · intro h hm
    obtain ⟨i, hi⟩ := lookupTok_some_of_mem hm
    rw [Dictionary.Find] at h
    rw [h] at hi
    cases hi
  · exact lookupTok_none_of_not_mem

theorem find_some_of_mem {α : Type} [DecidableEq α] {d : Dictionary α}
    {t : α} (h : t ∈ d.tokens) : ∃ l, d.Find t = some l :=
  lookupTok_some_of_mem h

theorem mem_of_find_some {α : Type} [DecidableEq α] {d : Dictionary α}
    {t : α} {l : Nat} (h : d.Find t = some l) : t ∈ d.tokens :=
  mem_of_lookupTok h

theorem insert_of_found {α : Type} [DecidableEq α] {d : Dictionary α}
    {t : α} {l : Nat} (h : d.Find t = some l) : d.Insert t = (d, l) := by
  simp [Dictionary.Insert, h]

theorem insert_of_new {α : Type} [DecidableEq α] {d : Dictionary α}
    {t : α} (h : d.Find t = none) :
    d.Insert t = (⟨d.tokens ++ [t]⟩, d.Size) := by
  simp [Dictionary.Insert, h, Dictionary.Size]

theorem insert_find_self {α : Type} [DecidableEq α] (d : Dictionary α)
    (t : α) : ((d.Insert t).1).Find t = some (d.Insert t).2 := by
  cases hf : d.Find t with
  | some l => simp [insert_of_found hf, hf]
  | none =>
    have hnm : t ∉ d.tokens := find_eq_none_iff.mp hf
    simp only [insert_of_new hf]
    exact lookupTok_append_self hnm

theorem insert_find_preserved {α : Type} [DecidableEq α] {d : Dictionary α}
    {t u : α} {l : Nat} (h : d.Find t = some l) :
    ((d.Insert u).1).Find t = some l := by
  cases hf : d.Find u with
  | some l2 => simp [insert_of_found hf, h]
  | none =>
    simp only [insert_of_new hf]
    exact lookupTok_append h

theorem insert_mem_mono {α : Type} [DecidableEq α] {d : Dictionary α}
    {t u : α} (h : t ∈ d.tokens) : t ∈ ((d.Insert u).1).tokens := by
  cases hf : d.Find u with
  | some l2 => simpa [insert_of_found hf] using h
  | none =>
    simp only [insert_of_new hf]
    exact List.mem_append_left _ h

theorem insert_mem_self {α : Type} [DecidableEq α] (d : Dictionary α)
    (t : α) : t ∈ ((d.Insert t).1).tokens :=
  mem_of_find_some (insert_find_self d t)

theorem insert_nodup {α : Type} [DecidableEq α] {d : Dictionary α} {u : α}
    (h : d.tokens.Nodup) : ((d.Insert u).1).tokens.Nodup := by
  cases hf : d.Find u with
  | some l2 => simpa [insert_of_found hf] using h
  | none =>
    have hnm : u ∉ d.tokens := find_eq_none_iff.mp hf
    simp only [insert_of_new hf]
    refine List.nodup_append.mpr ⟨h, List.nodup_singleton u, ?_⟩
    intro a ha hb
    have hau : a = u := by simpa using hb
    exact hnm (hau ▸ ha)

/-! ### Lemmas about inserting token streams -/

theorem insertList_mem_mono {α : Type} [DecidableEq α] {d : Dictionary α}
    {t : α} (ts : List α) (h : t ∈ d.tokens) :
    t ∈ (insertList d ts).tokens := by
  induction ts generalizing d with
  | nil => exact h
  | cons u us ih => exact ih (insert_mem_mono h)

theorem insertList_mem_inserted {α : Type} [DecidableEq α]
    {d : Dictionary α} {t : α} {ts : List α} (h : t ∈ ts) :
    t ∈ (insertList d ts).tokens := by
  induction ts generalizing d with
  | nil => cases h
  | cons u us ih =>
    rcases List.mem_cons.mp h with rfl | hm
    · exact insertList_mem_mono us (insert_mem_self d t)
    · exact ih hm

theorem insertList_find_preserved {α : Type} [DecidableEq α]
    {d : Dictionary α} {t : α} {l : Nat} (ts : List α)
    (h : d.Find t = some l) : (insertList d ts).Find t = some l := by
  induction ts generalizing d with
  | nil => exact h
  | cons u us ih => exact ih (insert_find_preserved h)

theorem insertList_nodup {α : Type} [DecidableEq α] {d : Dictionary α}
    (ts : List α) (h : d.tokens.Nodup) :
    (insertList d ts).tokens.Nodup := by
  induction ts generalizing d with
  | nil => exact h
  | cons u us ih => exact ih (insert_nodup h)

theorem insertList_eq_self {α : Type} [DecidableEq α] {d : Dictionary α}
    {ts : List α} (h : ∀ t ∈ ts, t ∈ d.tokens) : insertList d ts = d := by
  induction ts with
  | nil => rfl
  | cons u us ih =>
    obtain ⟨l, hl⟩ := find_some_of_mem (h u (List.mem_cons_self u us))
    have hstep : (d.Insert u).1 = d := by rw [insert_of_found hl]
    show insertList (d.Insert u).1 us = d
    rw [hstep]
    exact ih (fun t ht => h t (List.mem_cons_of_mem u ht))

theorem insertList_append {α : Type} [DecidableEq α] (d : Dictionary α)
    (l1 l2 : List α) :
    insertList d (l1 ++ l2) = insertList (insertList d l1) l2 := by
  induction l1 generalizing d with
  | nil => rfl
  | cons u us ih => exact ih (d.Insert u).1

theorem insertList_idem {α : Type} [DecidableEq α] (d : Dictionary α)
    (ts : List α) : insertList (insertList d ts) ts = insertList d ts :=
  insertList_eq_self (fun t ht => insertList_mem_inserted ht)

/-! ### Lemmas about the encoding pipeline -/

theorem encodeTokens_fst {α : Type} [DecidableEq α] (d : Dictionary α)
    (ts : List α) : (encodeTokens d ts).1 = insertList d ts := by
  induction ts generalizing d with
  | nil => rfl
  | cons u us ih => simpa [encodeTokens, insertList] using ih (d.Insert u).1

theorem encodeTokens_snd_length {α : Type} [DecidableEq α] (d : Dictionary α)
    (ts : List α) : (encodeTokens d ts).2.length = ts.length := by
  induction ts generalizing d with
  | nil => rfl
  | cons u us ih => simpa [encodeTokens] using ih (d.Insert u).1

theorem encodeCorpus_snd_length {α β : Type} [DecidableEq α]
    (tok : β → List α) (d : Dictionary α) (input : List β) :
    (encodeCorpus tok d input).2.length = input.length := by
  induction input generalizing d with
  | nil => rfl
  | cons line rest ih =>
    simpa [encodeCorpus] using ih (encodeTokens d (tok line)).1

theorem encodeCorpus_map_length {α β : Type} [DecidableEq α]
    (tok : β → List α) (d : Dictionary α) (input : List β) :
    ((encodeCorpus tok d input).2).map List.length
      = input.map (fun line => (tok line).length) := by
  induction input generalizing d with
  | nil => rfl
  | cons line rest ih =>
    simp only [encodeCorpus, List.map_cons]
    rw [List.cons_eq_cons]
    constructor
    · exact encodeTokens_snd_length d (tok line)
    · exact ih (encodeTokens d (tok line)).1

theorem encodeCorpus_row {α β : Type} [DecidableEq α] {tok : β → List α}
    {d : Dictionary α} {input : List β} {i : Nat} {line : β}
    (h : input[i]? = some line) :
    ∃ r, ((encodeCorpus tok d input).2)[i]? = some r
      ∧ r.length = (tok line).length := by
  have hm : ((encodeCorpus tok d input).2).map List.length
      = input.map (fun line => (tok line).length) :=
    encodeCorpus_map_length tok d input
  have h1 : (((encodeCorpus tok d input).2).map List.length)[i]?
      = some ((tok line).length) := by
    rw [hm, List.getElem?_map, h]
    rfl
  rw [List.getElem?_map] at h1
  obtain ⟨r, hr, hlen⟩ := Option.map_eq_some'.mp h1
  exact ⟨r, hr, hlen⟩

theorem createMapCorpus_cons {α β : Type} [DecidableEq α] (tok : β → List α)
    (line : β) (rest : List β) (d : Dictionary α) :
    createMapCorpus tok (line :: rest) d
      = createMapCorpus tok rest (createMap tok line d) := rfl

theorem createMapCorpus_eq_insertList {α β : Type} [DecidableEq α]
    (tok : β → List α) (input : List β) (d : Dictionary α) :
    createMapCorpus tok input d = insertList d (input.flatMap tok) := by
  induction input generalizing d with
  | nil => rfl
  | cons line rest ih =>
    rw [createMapCorpus_cons, ih, List.flatMap_cons, insertList_append]
    rfl

/-! ### Maximum and padding lemmas -/

theorem le_foldl_max (l : List Nat) (a : Nat) : a ≤ l.foldl max a := by
  induction l generalizing a with
  | nil => exact Nat.le_refl a
  | cons x xs ih => exact Nat.le_trans (Nat.le_max_left a x) (ih (max a x))

theorem mem_le_foldl_max {l : List Nat} {x : Nat} (h : x ∈ l) (a : Nat) :
    x ≤ l.foldl max a := by
  induction l generalizing a with
  | nil => cases h
  | cons y ys ih =>
    rcases List.mem_cons.mp h with rfl | hm
    · exact Nat.le_trans (Nat.le_max_right a x) (le_foldl_max ys (max a x))
    · exact ih hm (max a y)

theorem tokenCount_le_maxTokenCount {α β : Type} {tok : β → List α}
    {input : List β} {line : β} (h : line ∈ input) :
    (tok line).length ≤ maxTokenCount tok input :=
  mem_le_foldl_max (List.mem_map_of_mem (fun l => (tok l).length) h) 0

theorem padRow_length {w : Nat} {r : List Nat} (h : r.length ≤ w) :
    (padRow w r).length = w := by
  simp only [padRow, List.length_append, List.length_replicate]
  omega

theorem padRow_getElem_zero {w : Nat} {r : List Nat} {j : Nat}
    (h1 : r.length ≤ j) (h2 : j < w) : (padRow w r)[j]? = some 0 := by
  rw [padRow, List.getElem?_append_right h1, List.getElem?_replicate]
  rw [if_pos (by omega)]

/-! ### Slice loop lemmas -/

theorem initSlices_replicate (uniform : Bool) (rows cols n : Nat)
    (e : GMat) :
    initSlices uniform rows cols n (List.replicate n e)
      = List.replicate n (glorotInitializeSized uniform e rows cols) := by
  induction n with
  | zero => rfl
  | succ k ih => simp [List.replicate, initSlices, ih]

theorem initSlices_full (uniform : Bool) (rows cols : Nat)
    (ms : List GMat) :
    initSlices uniform rows cols ms.length ms
      = ms.map (fun m => glorotInitializeSized uniform m rows cols) := by
  induction ms with
  | nil => rfl
  | cons m rest ih => simp [initSlices, ih]

theorem glorotInitializeSized_fresh (uniform : Bool) (rows cols : Nat) :
    glorotInitializeSized uniform ⟨rows, cols, none⟩ rows cols
      = ⟨rows, cols, some (glorotMatDist uniform (rows + cols))⟩ := by
  rw [glorotInitializeSized]
  by_cases h : GMat.isEmpty ⟨rows, cols, none⟩
  · simp [h]
  · simp [h]

/-! ### Claim theorems -/

/-- C4: for every corpus and tokenizer, Encode into the jagged-sequence
output shape produces exactly one sequence per input line, in input order
(output sequence `i` corresponds to input line `i`), and the length of
sequence `i` equals the number of tokens the tokenizer yields for line `i`,
with no padding. -/
theorem jagged_output_shape {α β : Type} [DecidableEq α] (tok : β → List α)
    (d : Dictionary α) (input : List β) :
    (encodeCorpus tok d input).2.length = input.length
    ∧ ((encodeCorpus tok d input).2).map List.length
        = input.map (fun line => (tok line).length)
    ∧ ∀ (i : Nat) (line : β), input[i]? = some line →
        ∃ r : List Nat, ((encodeCorpus tok d input).2)[i]? = some r
          ∧ r.length = (tok line).length :=
  ⟨encodeCorpus_snd_length tok d input, encodeCorpus_map_length tok d input,
   fun _ _ h => encodeCorpus_row h⟩

/-- C6: `Dictionary.Insert` is idempotent — inserting a present token
returns its first-assigned label and leaves the Dictionary unchanged; an
unseen token gets the next sequential label (`Size`) appended at the end;
afterwards `Find` (a pure function of the Dictionary, so it never mutates
it) returns that same label. -/
theorem insert_idempotent_and_stable {α : Type} [DecidableEq α]
    (d : Dictionary α) (t : α) :
    (∀ l, d.Find t = some l → d.Insert t = (d, l))
    ∧ (d.Find t = none →
        (d.Insert t).2 = d.Size
        ∧ ((d.Insert t).1).tokens = d.tokens ++ [t])
    ∧ ((d.Insert t).1).Find t = some (d.Insert t).2
    ∧ ((d.Insert t).1).Insert t = ((d.Insert t).1, (d.Insert t).2) :=
  ⟨fun _ h => insert_of_found h,
   fun h => by simp [insert_of_new h],
   insert_find_self d t,
   insert_of_found (insert_find_self d t)⟩

/-- C7: for every corpus and tokenizer, running `CreateMap` on the corpus a
second time leaves the Dictionary exactly as it was after the first call
(same token set, same labels, same size), both for a corpus of many lines
and for a single input string. -/
theorem createMap_idempotent {α β : Type} [DecidableEq α]
    (tok : β → List α) (input : List β) (s : β) (d : Dictionary α) :
    createMapCorpus tok input (createMapCorpus tok input d)
      = createMapCorpus tok input d
    ∧ createMap tok s (createMap tok s d) = createMap tok s d := by
  constructor
  · simp only [createMapCorpus_eq_insertList]
    exact insertList_idem d (input.flatMap tok)
  · exact insertList_idem d (tok s)

/-- C5: serializing a populated StringEncoding (its Dictionary; the
dictionary-based policy is stateless) and deserializing it yields an object
on which Encode over the same corpus with the same tokenizer produces
output identical to the output produced before serialization, for both the
jagged and the dense output shapes. -/
theorem serialize_roundtrip_encode {α β : Type} [DecidableEq α]
    (tok : β → List α) (d : Dictionary α) (input : List β) :
    Dictionary.deserializeDict d.serializeDict = d
    ∧ encodeCorpus tok (Dictionary.deserializeDict d.serializeDict) input
        = encodeCorpus tok d input
    ∧ encodeDense tok (Dictionary.deserializeDict d.serializeDict) input
        = encodeDense tok d input := by
  have h : Dictionary.deserializeDict d.serializeDict = d := by
    cases d with
    | mk ts =>
      simp only [Dictionary.serializeDict, Dictionary.deserializeDict,
        List.map_map, Dictionary.mk.injEq]
      have hc : (Prod.fst ∘ fun p : Nat × α => (p.2, p.1)) = Prod.snd := rfl
      rw [hc, List.enum_map_snd]
  exact ⟨h, by rw [h], by rw [h]⟩

/-- C2: whenever the Dictionary's token table is duplicate-free (as it is
at every point of its lifetime: a fresh or cleared Dictionary is empty and
`Insert` preserves the property), the token→label assignment is a bijection
onto `{0 … Size-1}`, and a token's label survives every operation other
than `Clear` (`Insert` of any token, and whole token streams as fed by
`CreateMap` and `Encode`); `Clear` resets the whole table. -/
theorem dictionary_label_bijection {α : Type} [DecidableEq α]
    (d : Dictionary α) (hnd : d.tokens.Nodup) :
    DictionaryBijectionSpec d
    ∧ DictionaryLabelPermanence d
    ∧ (∀ u, ((d.Insert u).1).tokens.Nodup)
    ∧ (Dictionary.empty α).tokens.Nodup
    ∧ d.Clear = Dictionary.empty α := by
  refine ⟨⟨?_, ?_, ?_⟩, ⟨?_, ?_⟩, ?_, ?_, ?_⟩
  · intro t ht
    obtain ⟨l, hl⟩ := find_some_of_mem ht
    exact ⟨l, hl, lookupTok_lt_length hl⟩
  · intro l hl
    exact ⟨d.tokens.get ⟨l, hl⟩, List.get_mem d.tokens l hl,
      lookupTok_get_of_nodup hnd l hl⟩
  · intro t1 t2 l h1 h2
    obtain ⟨hi1, he1⟩ := lookupTok_get h1
    obtain ⟨hi2, he2⟩ := lookupTok_get h2
    rw [← he1, ← he2]
  · intro t l u h
    exact insert_find_preserved h
  · intro t l ts h
    exact insertList_find_preserved ts h
  · intro u
    exact insert_nodup hnd
  · exact List.nodup_nil
  · rfl

/-- C2 witness: the bijection and permanence statement at the concrete
two-token Dictionary `[5, 7]`. -/
theorem dictionary_label_bijection_witness :
    DictionaryBijectionSpec (⟨[5, 7]⟩ : Dictionary Nat)
    ∧ DictionaryLabelPermanence (⟨[5, 7]⟩ : Dictionary Nat)
    ∧ (∀ u, (((⟨[5, 7]⟩ : Dictionary Nat).Insert u).1).tokens.Nodup)
    ∧ (Dictionary.empty Nat).tokens.Nodup
    ∧ (⟨[5, 7]⟩ : Dictionary Nat).Clear = Dictionary.empty Nat :=
  dictionary_label_bijection ⟨[5, 7]⟩ (by decide)

/-- C3: for every corpus and tokenizer, Encode into the dense-matrix output
shape produces one row per input line, each row of width equal to the
maximum token count over all lines of the corpus, and for every line whose
token count is below that maximum, every cell to the right of its last
token is zero. -/
theorem dense_output_shape {α β : Type} [DecidableEq α] (tok : β → List α)
    (d : Dictionary α) (input : List β) :
    (encodeDense tok d input).2.length = input.length
    ∧ (∀ row ∈ (encodeDense tok d input).2,
        row.length = maxTokenCount tok input)
    ∧ ∀ (i : Nat) (line : β), input[i]? = some line →
        ∃ row : List Nat, ((encodeDense tok d input).2)[i]? = some row
          ∧ row.length = maxTokenCount tok input
          ∧ ∀ j : Nat, (tok line).length ≤ j →
              j < maxTokenCount tok input → row[j]? = some 0 := by
  refine ⟨?_, ?_, ?_⟩
  · show ((encodeCorpus tok d input).2.map
        (padRow (maxTokenCount tok input))).length = input.length
    rw [List.length_map, encodeCorpus_snd_length]
  · intro row hrow
    obtain ⟨r, hr, rfl⟩ := List.mem_map.mp hrow
    have hmem : r.length ∈ ((encodeCorpus tok d input).2).map List.length :=
      List.mem_map_of_mem List.length hr
    rw [encodeCorpus_map_length] at hmem
    obtain ⟨line, hline, heq⟩ := List.mem_map.mp hmem
    exact padRow_length (heq ▸ tokenCount_le_maxTokenCount hline)
  · intro i line h
    obtain ⟨r, hr, hlen⟩ := @encodeCorpus_row α β _ tok d input i line h
    have hle : r.length ≤ maxTokenCount tok input := by
      rw [hlen]
      exact tokenCount_le_maxTokenCount (List.getElem?_mem h)
    refine ⟨padRow (maxTokenCount tok input) r, ?_, padRow_length hle, ?_⟩
    · show ((encodeCorpus tok d input).2.map
          (padRow (maxTokenCount tok input)))[i]? = _
      rw [List.getElem?_map, hr]
      rfl
    · intro j hj hjw
      exact padRow_getElem_zero (by omega) hjw

/-- C8: calling an Initialize overload that must infer the shape from the
container (matrix or cube, no explicit dimensions) on an empty container is
fatal — modelled as the error outcome of `Log::Fatal`, with no recovery
path and no partial initialization (no container is produced). -/
theorem glorot_infer_empty_fatal (uniform : Bool) (W : GMat) (C : GCube)
    (hW : W.isEmpty = true) (hC : C.isEmpty = true) :
    glorotInitializeInfer uniform W = Except.error FatalError.emptyMatrix
    ∧ glorotCubeInitializeInfer uniform C
        = Except.error FatalError.emptyMatrix := by
  constructor
  · simp [glorotInitializeInfer, hW]
  · simp [glorotCubeInitializeInfer, hC]

/-- C8 witness: the fatal outcome at the concrete empty 0×0 matrix and the
empty cube. -/
theorem glorot_infer_empty_fatal_witness :
    GMat.isEmpty ⟨0, 0, none⟩ = true
    ∧ GCube.isEmpty ⟨0, 0, []⟩ = true
    ∧ glorotInitializeInfer true ⟨0, 0, none⟩
        = Except.error FatalError.emptyMatrix
    ∧ glorotCubeInitializeInfer true ⟨0, 0, []⟩
        = Except.error FatalError.emptyMatrix := by
  refine ⟨rfl, rfl, ?_⟩
  exact glorot_infer_empty_fatal true ⟨0, 0, none⟩ ⟨0, 0, []⟩ rfl rfl

/-- C9: the alias `XavierInitialization` denotes the uniform variant
(`U[-sqrt 6 / sqrt (rows+cols), +sqrt 6 / sqrt (rows+cols)]`) while the
alias `GlorotInitialization` denotes the normal-distribution variant (mean
0, variance `2 / (rows+cols)`); the in-code comment claiming that
`GlorotInitialization` uses the uniform distribution does not match: the
distribution it names is not a uniform one. -/
theorem glorot_alias_distributions (n rows cols : Nat) (W : GMat) :
    glorotMatDist XavierInitialization n = InitDistribution.uniformSym 6 n
    ∧ glorotMatDist GlorotInitialization n = InitDistribution.gaussian 0 2 n
    ∧ (glorotInitializeSized XavierInitialization W rows cols).dist
        = some (InitDistribution.uniformSym 6 (rows + cols))
    ∧ (glorotInitializeSized GlorotInitialization W rows cols).dist
        = some (InitDistribution.gaussian 0 2 (rows + cols))
    ∧ ∀ a b : Nat, glorotMatDist GlorotInitialization n
        ≠ InitDistribution.uniformSym a b := by
  refine ⟨rfl, rfl, rfl, rfl, ?_⟩
  intro a b h
  simp [glorotMatDist, GlorotInitialization] at h

/-- C10: the cube Initialize overloads initialize every slice independently
by the matrix rule with the cube's rows and cols only — the distribution is
identical for every slice and does not depend on the number of slices — and
the sized overload first allocates an empty cube to rows × cols × slices. -/
theorem glorot_cube_slicewise (uniform : Bool) (rows cols slices : Nat)
    (W : GCube) (hW : W.isEmpty = true) :
    GlorotCubeSizedSpec uniform rows cols slices W
    ∧ GlorotCubeInferSpec uniform := by
  constructor
  · have hunf : glorotCubeInitializeSized uniform W rows cols slices
        = { nRows := rows, nCols := cols,
            slices := List.replicate slices
              ⟨rows, cols, some (glorotMatDist uniform (rows + cols))⟩ } := by
      simp only [glorotCubeInitializeSized, hW, if_true]
      rw [initSlices_replicate, glorotInitializeSized_fresh]
    refine ⟨?_, ?_, ?_, ?_⟩
    · rw [hunf]
    · rw [hunf]
    · rw [hunf]
      exact List.length_replicate _ _
    · intro m hm
      rw [hunf] at hm
      exact List.eq_of_mem_replicate hm
  · intro C2 hC2
    refine ⟨⟨C2.nRows, C2.nCols,
      initSlices uniform C2.nRows C2.nCols C2.slices.length C2.slices⟩,
      ?_, rfl, rfl, ?_, ?_⟩
    · simp [glorotCubeInitializeInfer, hC2]
    · show (initSlices uniform C2.nRows C2.nCols
        C2.slices.length C2.slices).length = C2.slices.length
      rw [initSlices_full, List.length_map]
    · intro m hm
      have hm2 : m ∈ (C2.slices).map
          (fun m0 => glorotInitializeSized uniform m0 C2.nRows C2.nCols) := by
        rw [← initSlices_full]
        exact hm
      obtain ⟨m0, hm0, rfl⟩ := List.mem_map.mp hm2
      rfl

/-- C10 witness: the slice-wise initialization statement at an empty cube
and concrete dimensions 2 × 3 × 4 with the normal-distribution variant. -/
theorem glorot_cube_slicewise_witness :
    GlorotCubeSizedSpec false 2 3 4 ⟨0, 0, []⟩ ∧ GlorotCubeInferSpec false :=
  glorot_cube_slicewise false 2 3 4 ⟨0, 0, []⟩ rfl

/-- C1: for the corpus of the two lines "a b" and "a c d" (as character
lists) tokenized by whitespace, starting from a fresh Dictionary, CreateMap
followed by Encode assigns labels a→0, b→1, c→2, d→3; the jagged-sequence
output is [[0,1],[0,2,3]] and the dense-matrix output is
[[0,1,0],[0,2,3]] (rows padded to width 3). -/
theorem concrete_scenario_encode :
    ((createMapCorpus whitespaceTokenize
        [['a', ' ', 'b'], ['a', ' ', 'c', ' ', 'd']]
        (Dictionary.empty (List Char))).Find ['a'] = some 0
      ∧ (createMapCorpus whitespaceTokenize
        [['a', ' ', 'b'], ['a', ' ', 'c', ' ', 'd']]
        (Dictionary.empty (List Char))).Find ['b'] = some 1
      ∧ (createMapCorpus whitespaceTokenize
        [['a', ' ', 'b'], ['a', ' ', 'c', ' ', 'd']]
        (Dictionary.empty (List Char))).Find ['c'] = some 2
      ∧ (createMapCorpus whitespaceTokenize
        [['a', ' ', 'b'], ['a', ' ', 'c', ' ', 'd']]
        (Dictionary.empty (List Char))).Find ['d'] = some 3)
    ∧ (encodeCorpus whitespaceTokenize
        (createMapCorpus whitespaceTokenize
          [['a', ' ', 'b'], ['a', ' ', 'c', ' ', 'd']]
          (Dictionary.empty (List Char)))
        [['a', ' ', 'b'], ['a', ' ', 'c', ' ', 'd']]).2
        = [[0, 1], [0, 2, 3]]
    ∧ (encodeDense whitespaceTokenize
        (createMapCorpus whitespaceTokenize
          [['a', ' ', 'b'], ['a', ' ', 'c', ' ', 'd']]
          (Dictionary.empty (List Char)))
        [['a', ' ', 'b'], ['a', ' ', 'c', ' ', 'd']]).2
        = [[0, 1, 0], [0, 2, 3]] := by
  decide
